import Mathlib

/-!
Verification of `reg_exp_converter.py`, a converter from a finite state
automaton description to a regular expression.

The Python program is shallowly embedded below.  Python strings are Lean
`String`s, Python lists are Lean `List`s, raised exceptions are explicit
error values, and `exit()` / uncaught exceptions are modelled by an
`Outcome` type.  All definitions are structurally recursive so that they
evaluate inside the kernel.
-/

namespace FSARegExp

/-! ## Python string primitives -/

/-- Python `s.split(sep)` on a list of characters: splits at every
occurrence of `sep`, keeping empty fields; the result is never empty. -/
def splitChar (sep : Char) : List Char → List (List Char)
  | [] => [[]]
  | c :: rest =>
    if c = sep then [] :: splitChar sep rest
    else
      match splitChar sep rest with
      | [] => [[c]]
      | w :: ws => (c :: w) :: ws

/-- Python `s.split(sep)` for `String`s. -/
def pySplit (s : String) (sep : Char) : List String :=
  (splitChar sep s.data).map String.mk

/-- `startsWith pat l`: `pat` is a prefix of `l`. -/
def startsWith : List Char → List Char → Bool
  | [], _ => true
  | _ :: _, [] => false
  | p :: ps, c :: cs => p = c && startsWith ps cs

/-- Python `pat in l` (substring containment). -/
def containsSub (l pat : List Char) : Bool :=
  match l with
  | [] => pat.isEmpty
  | _ :: rest => startsWith pat l || containsSub rest pat

/-- The matches of Python `re.findall(r'\[([^\]]+)\]', line)`: every
maximal occurrence of `[` followed by one or more non-`]` characters and
a closing `]`, scanning left to right; the captured group (the bracket
content) is returned.  `fuel` bounds the recursion and is always given
as `length + 1`, which is sufficient because every recursive call
consumes at least one character. -/
def findGroupsAux : Nat → List Char → List String
  | 0, _ => []
  | _ + 1, [] => []
  | f + 1, '[' :: rest =>
    (let run := rest.takeWhile (fun c => ¬ (c = ']'))
     match rest.drop run.length with
     | ']' :: after =>
       if run.isEmpty then findGroupsAux f rest
       else String.mk run :: findGroupsAux f after
     | _ => findGroupsAux f rest)
  | f + 1, _ :: rest => findGroupsAux f rest

/-- All bracket groups of a line, per `re.findall(r'\[([^\]]+)\]', line)`. -/
def findall (s : String) : List String :=
  findGroupsAux (s.data.length + 1) s.data

/-- Strict lexicographic order on character lists by code point,
Python's `<` on strings. -/
def lexLt : List Char → List Char → Bool
  | [], [] => false
  | [], _ :: _ => true
  | _ :: _, [] => false
  | a :: as, b :: bs =>
    if a.val < b.val then true
    else if b.val < a.val then false
    else lexLt as bs

def strLt (s t : String) : Bool := lexLt s.data t.data

def insertSorted (x : String) : List String → List String
  | [] => [x]
  | y :: rest => if strLt x y then x :: y :: rest else y :: insertSorted x rest

/-- Ascending sort by code-point order, Python `list.sort()` on strings. -/
def sortStrings (l : List String) : List String := l.foldr insertSorted []

def dedupAux : List String → List String → List String
  | _, [] => []
  | seen, x :: rest =>
    if x ∈ seen then dedupAux seen rest else x :: dedupAux (x :: seen) rest

/-- Distinct elements in order of first occurrence; composed with
`sortStrings` this models Python `sorted(set(l))` (the sorted list of
the distinct elements, whatever intermediate order `set` produces). -/
def dedupFirst (l : List String) : List String := dedupAux [] l

/-! ## Data model (`RegularExpressionConverter.__extract`) -/

/-- The parsed automaton, the state of `RegularExpressionConverter`
after `__extract` has succeeded. -/
structure Conv where
  automaton_type : String
  states : List String
  alphabet : List String
  initial_state : String
  accepting_states : List String
  transitions : List String
deriving DecidableEq, Repr

/-- Replace the declared type token, keeping everything else. -/
def withType (c : Conv) (t : String) : Conv :=
  Conv.mk t c.states c.alphabet c.initial_state c.accepting_states c.transitions

def commandsList : List String :=
  ["type", "states", "alphabet", "initial", "accepting", "transitions"]

/-- The per-line keyword check of `__extract`: line `i` must contain
`commands[i]` as a substring; a seventh line indexes past `commands`
(an `IndexError`, collapsed into the same malformed-input error). -/
def keywordsOk : List String → List String → Bool
  | _, [] => true
  | [], _ :: _ => false
  | cmd :: cmds, line :: rest => containsSub line.data cmd.data && keywordsOk cmds rest

/-- `parsed_vals[k][0]`: the first bracket group of line `k`, if any. -/
def getVal (lines : List String) (k : Nat) : Option String :=
  match lines[k]? with
  | some l => (findall l).head?
  | none => none

/-- `__extract`: keyword check on every line, then the six fields are
read from the first bracket group of each line.  Any failure (missing
keyword, too many lines, missing bracket group) raises
`InputIsMalformedException`, modelled as `Except.error ()`. -/
def extract (lines : List String) : Except Unit Conv :=
  if keywordsOk commandsList lines then
    match getVal lines 0, getVal lines 1, getVal lines 2,
          getVal lines 3, getVal lines 4, getVal lines 5 with
    | some t, some st, some al, some ini, some acc, some tr =>
      Except.ok (Conv.mk t (sortStrings (dedupFirst (pySplit st ',')))
        (pySplit al ',') ini (pySplit acc ',') (pySplit tr ','))
    | _, _, _, _, _, _ => Except.error ()
  else Except.error ()

/-! ## Errors -/

/-- The `ConverterException` hierarchy. -/
inductive CErr where
  | inputMalformed
  | initStateUndefined
  | noAcceptingStates
  | invalidState (s : String)
  | invalidTransition (sym : String)
  | disjointStates
  | nondeterministicFsa
deriving DecidableEq, Repr

/-- The message each exception prints (its `__str__`). -/
def messageOf : CErr → String
  | .inputMalformed => "E1: Input file is malformed"
  | .initStateUndefined => "E2: Initial state is not defined"
  | .noAcceptingStates => "E3: Set of accepting states is empty"
  | .invalidState s => "E4: A state \x27" ++ s ++ "\x27 is not in the set of states"
  | .invalidTransition sym =>
    "E5: A transition \x27" ++ sym ++ "\x27 is not represented in the alphabet"
  | .disjointStates => "E6: Some states are disjoint"
  | .nondeterministicFsa => "E7: FSA is non-deterministic"

/-- What `__validate` can raise: a `ConverterException`, or a Python
`ValueError` from unpacking `transition.split('>')` into three names
when the transition does not have exactly three fields. -/
inductive VErr where
  | cexc (e : CErr)
  | pyValueError
deriving DecidableEq, Repr

/-! ## Validation (`RegularExpressionConverter.__validate`) -/

/-- `transition.split('>')` unpacked into `(source, symbol, dest)`;
`none` models the `ValueError` when the field count is not three. -/
def splitT (t : String) : Option (String × String × String) :=
  match pySplit t '>' with
  | [a, b, c] => some (a, b, c)
  | _ => none

/-- Split every transition; the first malformed one aborts (`ValueError`). -/
def splitTs : List String → Option (List (String × String × String))
  | [] => some []
  | t :: rest =>
    match splitT t, splitTs rest with
    | some x, some xs => some (x :: xs)
    | _, _ => none

/-- Check 1: duplicate transition strings (`len(set(..)) != len(..)`). -/
def check1 (c : Conv) : Option VErr :=
  if (dedupFirst c.transitions).length ≠ c.transitions.length then
    some (.cexc .inputMalformed)
  else none

/-- Check 2: initial state empty, or not a declared state. -/
def check2 (c : Conv) : Option VErr :=
  if c.initial_state = "" then some (.cexc .initStateUndefined)
  else if c.initial_state ∈ c.states then none
  else some (.cexc (.invalidState c.initial_state))

/-- Check 3: the accepting-state list is empty. -/
def check3 (c : Conv) : Option VErr :=
  if c.accepting_states = [] then some (.cexc .noAcceptingStates) else none

def firstBad (states : List String) : List String → Option String
  | [] => none
  | s :: rest => if s ∈ states then firstBad states rest else some s

/-- Check 4: every accepting state is declared; first offender raised. -/
def check4 (c : Conv) : Option VErr :=
  match firstBad c.states c.accepting_states with
  | some s => some (.cexc (.invalidState s))
  | none => none

/-- Check 5, one transition: unpack, then source non-empty, source and
destination declared, symbol in the alphabet — in that order. -/
def check5one (states alphabet : List String) (t : String) : Option VErr :=
  match splitT t with
  | none => some .pyValueError
  | some (s, sym, d) =>
    if s = "" then some (.cexc .inputMalformed)
    else if ¬ (s ∈ states) then some (.cexc (.invalidState s))
    else if ¬ (d ∈ states) then some (.cexc (.invalidState d))
    else if ¬ (sym ∈ alphabet) then some (.cexc (.invalidTransition sym))
    else none

/-- First error of a list of check outcomes (short-circuit). -/
def firstErr : List (Option VErr) → Option VErr
  | [] => none
  | some e :: _ => some e
  | none :: rest => firstErr rest

/-- Check 5 over all transitions in order. -/
def check5 (c : Conv) : Option VErr :=
  firstErr (c.transitions.map (check5one c.states c.alphabet))

/-! ### The reachability graph (`Node`, `Graph`) -/

/-- The graph: labels in insertion order, each with its adjacency list.
`Graph.addNode` deduplicates nodes by label, `Node.addEdge`
deduplicates adjacent labels, so a label-keyed association list is a
faithful model of the Python object graph. -/
abbrev GraphS := List (String × List String)

def addNodeL (g : GraphS) (l : String) : GraphS :=
  if g.any (fun p => p.1 == l) then g else g ++ [(l, [])]

def addEdgeL (g : GraphS) (s d : String) : GraphS :=
  g.map (fun p => if p.1 = s then (p.1, if d ∈ p.2 then p.2 else p.2 ++ [d]) else p)

def graphStep (g : GraphS) (t : String × String × String) : GraphS :=
  addEdgeL (addNodeL (addNodeL g t.1) t.2.2) t.1 t.2.2

/-- The graph `__validate` builds: for each transition, add the source
node, add the destination node, add one edge source → destination. -/
def graphOf (ts : List (String × String × String)) : GraphS :=
  ts.foldl graphStep []

def adjOf (g : GraphS) (u : String) : List String :=
  match g.find? (fun p => p.1 == u) with
  | some p => p.2
  | none => []

/-- `Graph.__depthFirstSearch`: append the node to the visited list,
then recurse into each unvisited adjacent node in order.  `fuel` is
always called with (node count + 1), which the call tree never
exhausts, since every nested call visits a previously unvisited node. -/
def dfsAux (g : GraphS) : Nat → String → List String → List String
  | 0, _, vis => vis
  | f + 1, u, vis =>
    (adjOf g u).foldl
      (fun vis2 v => if v ∈ vis2 then vis2 else dfsAux g f v vis2) (vis ++ [u])

/-- Does some transition mention the label as source or destination? -/
def mentionsLabel (ts : List (String × String × String)) (l : String) : Bool :=
  ts.any (fun t => t.1 == l || t.2.2 == l)

/-- The list of visited nodes of the traversal `isRegular` runs: if the
initial state occurs in some transition, a depth-first search from its
node; otherwise `init_node` is the fresh unconnected `Node()` (empty
label, empty adjacency, not in the graph) and the traversal visits
exactly that one dummy node. -/
def reachedList (c : Conv) (ts : List (String × String × String)) : List String :=
  if mentionsLabel ts c.initial_state then
    dfsAux (graphOf ts) ((graphOf ts).length + 1) c.initial_state []
  else [""]

def reachedCount (c : Conv) (ts : List (String × String × String)) : Nat :=
  (reachedList c ts).length

/-- Check 6: build the graph, traverse from the initial node, raise
`DisjointStatesException` unless the visit count equals `len(states)`. -/
def check6 (c : Conv) : Option VErr :=
  match splitTs c.transitions with
  | none => some .pyValueError
  | some ts =>
    if reachedCount c ts ≠ c.states.length then some (.cexc .disjointStates)
    else none

/-! ### Check 7 -/

/-- `defaultdict(list)` grouping: append `a` to the bucket of key `s`,
creating the bucket at the end on first use (insertion order). -/
def addGroup : List (String × List String) → String → String → List (String × List String)
  | [], s, a => [(s, [a])]
  | (k, vs) :: rest, s, a =>
    if k = s then (k, vs ++ [a]) :: rest else (k, vs) :: addGroup rest s a

/-- Outgoing symbols grouped by source state, in transition order. -/
def groupBySource (ts : List (String × String × String)) : List (String × List String) :=
  ts.foldl (fun acc t => addGroup acc t.1 t.2.1) []

/-- Check 7: only when the declared type is exactly `deterministic`,
group outgoing symbols by source and raise if some bucket repeats a
symbol (`len(set(..)) != len(..)`). -/
def check7 (c : Conv) : Option VErr :=
  if c.automaton_type = "deterministic" then
    match splitTs c.transitions with
    | none => some .pyValueError
    | some ts =>
      if (groupBySource ts).any (fun p => (dedupFirst p.2).length ≠ p.2.length) then
        some (.cexc .nondeterministicFsa)
      else none
  else none

/-- `__validate`: the seven checks in source order, raising at the
first failure. -/
def validate (c : Conv) : Option VErr :=
  match check1 c with
  | some e => some e
  | none =>
  match check2 c with
  | some e => some e
  | none =>
  match check3 c with
  | some e => some e
  | none =>
  match check4 c with
  | some e => some e
  | none =>
  match check5 c with
  | some e => some e
  | none =>
  match check6 c with
  | some e => some e
  | none => check7 c

/-! ## Regex construction (`__buildInitialRegExp`, `convert`) -/

def epsilonTok : String := "eps"

def emptySetTok : String := "\x7b\x7d"

/-- One cell of the base matrix: for each transition from `si` to `sj`
append `symbol ++ "|"`; append `eps` on the diagonal; the empty-set
token if still empty; finally strip a trailing `|`
(`new_regular_expression[:-1] if '|' in new_regular_expression[-1]`). -/
def cellOf (ts : List (String × String × String)) (si sj : String) : String :=
  let r1 := ts.foldl
    (fun acc t => if t.1 = si ∧ t.2.2 = sj then acc ++ t.2.1 ++ "|" else acc) ""
  let r2 := if si = sj then r1 ++ epsilonTok else r1
  let r3 := if r2 = "" then emptySetTok else r2
  if r3.data.getLast? = some '|' then String.mk r3.data.dropLast else r3

/-- `matrix[i][j]` with the out-of-range default never used in range. -/
def get2 (M : List (List String)) (i j : Nat) : String := (M.getD i []).getD j ""

/-- An `n × n` matrix built cellwise, as the list comprehensions do. -/
def mkMatrix (n : Nat) (f : Nat → Nat → String) : List (List String) :=
  (List.range n).map (fun i => (List.range n).map (fun j => f i j))

/-- `__buildInitialRegExp`; `none` models the `ValueError` raised while
splitting a transition with the wrong field count. -/
def buildInitialRegExp (c : Conv) : Option (List (List String)) :=
  match splitTs c.transitions with
  | none => none
  | some ts =>
    some (mkMatrix c.states.length
      (fun i j => cellOf ts (c.states.getD i "") (c.states.getD j "")))

/-- One elimination step of `convert`: the fresh matrix whose `(i, j)`
cell is `"(" M[i][k] ")(" M[k][k] ")*(" M[k][j] ")|(" M[i][j] ")"`. -/
def kleeneStep (n : Nat) (M : List (List String)) (k : Nat) : List (List String) :=
  mkMatrix n (fun i j =>
    "(" ++ get2 M i k ++ ")(" ++ get2 M k k ++ ")*(" ++ get2 M k j ++ ")|("
      ++ get2 M i j ++ ")")

/-- The matrix after the first `m` elimination steps (`convert` runs
all `n`, one per state index). -/
def matAfter (c : Conv) (M0 : List (List String)) (m : Nat) : List (List String) :=
  (List.range m).foldl (kleeneStep c.states.length) M0

/-- `convert`'s final assembly, reading the given row: for each index
`i` with `states[i]` accepting, append `"(" ++ M[row][i] ++ ")|"`; the
empty-set token when no index contributed, else the result without its
trailing `|`.  The source fixes `row = 0`. -/
def assembleFrom (c : Conv) (M : List (List String)) (row : Nat) : String :=
  let accIdxs := (List.range c.states.length).filter
    (fun i => c.accepting_states.contains (c.states.getD i ""))
  match accIdxs with
  | [] => emptySetTok
  | _ =>
    let answer := String.join (accIdxs.map (fun i => "(" ++ get2 M row i ++ ")|"))
    String.mk answer.data.dropLast

/-- The construction phase of `convert` (everything after validation):
base matrix, `n` elimination steps, assembly from row `0`. -/
def construction (c : Conv) : Option String :=
  match buildInitialRegExp c with
  | none => none
  | some M0 =>
    some (assembleFrom c (matAfter c M0 c.states.length) 0)

/-! ## Process outcome (`convert` + `main`) -/

/-- What one run of the program does after parsing its input lines:
print the regex and exit normally; print one diagnostic line and stop
with the given status (`exit()` inside the `except` block raises
`SystemExit` with status 0); or die on an uncaught non-`Converter`
exception (traceback, status 1), modelled as `crash`. -/
inductive Outcome where
  | output (s : String)
  | errExit (msg : String) (code : Nat)
  | crash
deriving DecidableEq, Repr

/-- `convert` after a successful `__extract`: validate, and on a
`ConverterException` print its message and `exit()` (status 0); a
`ValueError` propagates; otherwise build and return the regex. -/
def processConv (c : Conv) : Outcome :=
  match validate c with
  | some (.cexc e) => .errExit (messageOf e) 0
  | some .pyValueError => .crash
  | none =>
    match construction c with
    | some s => .output s
    | none => .crash

/-- The whole pipeline on the input lines: `__extract`, `__validate`,
construction, with `main` printing the returned regex on success. -/
def convert (lines : List String) : Outcome :=
  match extract lines with
  | .error _ => .errExit (messageOf .inputMalformed) 0
  | .ok c => processConv c

/-- The exit status of the process for each outcome: `main` returning
normally is status 0, `exit()` carries its modelled status, an
uncaught exception is status 1. -/
def exitCodeOf : Outcome → Nat
  | .output _ => 0
  | .errExit _ code => code
  | .crash => 1

/-! ## Spec-side definitions -/

/-- Index of a state in the sorted state list (`list.index`). -/
def idxOfState (l : List String) (x : String) : Nat := l.findIdx (fun s => s == x)

/-- Modelled from the spec: the final assembly the spec prescribes,
reading the row of the initial state's actual sorted position instead
of row 0 (spec §4.3 final assembly together with the §9 design note
that row 0 is a latent bug).  Used to compare against `construction`. -/
def claimAnswer (c : Conv) : Option String :=
  match buildInitialRegExp c with
  | none => none
  | some M0 =>
    some (assembleFrom c (matAfter c M0 c.states.length)
      (idxOfState c.states c.initial_state))

/-- Modelled from the spec: the alternation of a list of alternatives,
joined by `|` with no trailing separator. -/
def joinBar : List String → String
  | [] => ""
  | [x] => x
  | x :: y :: rest => x ++ "|" ++ joinBar (y :: rest)

/-- The symbols of the transitions from `si` to `sj`, in transition order. -/
def symsOf (ts : List (String × String × String)) (si sj : String) : List String :=
  (ts.filter (fun t => decide (t.1 = si ∧ t.2.2 = sj))).map (fun t => t.2.1)

/-- Modelled from the spec (§4.3 base matrix): the cell is the
alternation of the applicable transition symbols, plus the epsilon
token on the diagonal, or the empty-language marker if no alternative
applies, with no trailing separator. -/
def specCell (ts : List (String × String × String)) (si sj : String) : String :=
  let parts := symsOf ts si sj ++ (if si = sj then [epsilonTok] else [])
  if parts = [] then emptySetTok else joinBar parts

/-- Modelled from the spec (§4.3 recurrence): the step-`k` cell `(i,j)`
computed from the previous step's completed matrix,
`(R[i][k])(R[k][k])*(R[k][j]) | (R[i][j])`. -/
def specStepCell (M : List (List String)) (k i j : Nat) : String :=
  "(" ++ get2 M i k ++ ")(" ++ get2 M k k ++ ")*(" ++ get2 M k j ++ ")|("
    ++ get2 M i j ++ ")"

/-- Some source state has two or more transitions sharing the same
outgoing symbol. -/
def sharedSymbol (ts : List (String × String × String)) : Prop :=
  ∃ s a, 2 ≤ (ts.filter (fun t => decide (t.1 = s ∧ t.2.1 = a))).length

/-! ## Regular-expression syntax and semantics

To state what the produced regex string *denotes*, the standard regex
grammar over the tokens the program emits (single-character symbols,
`eps`, the empty-set marker, `|`, postfix `*`, parentheses) is given a
recursive-descent reader and a language semantics. -/

inductive RExp where
  | emptyL
  | epsR
  | chr (c : Char)
  | alt (r s : RExp)
  | cat (r s : RExp)
  | star (r : RExp)
deriving DecidableEq, Repr

/-- The language an expression denotes. -/
def langOf : RExp → Language Char
  | .emptyL => 0
  | .epsR => 1
  | .chr c => {[c]}
  | .alt r s => langOf r + langOf s
  | .cat r s => langOf r * langOf s
  | .star r => KStar.kstar (langOf r)

/-- Consume postfix stars after an atom. -/
def parseStars : RExp → List Char → RExp × List Char
  | r, '*' :: rest => parseStars (.star r) rest
  | r, rest => (r, rest)

mutual

/-- One atom: a parenthesised alternation, `eps`, the empty-set marker,
or a single symbol character. -/
def parseAtom : Nat → List Char → Option (RExp × List Char)
  | 0, _ => none
  | f + 1, '(' :: rest =>
    (match parseAlt f rest with
     | some (r, ')' :: restA) => some (r, restA)
     | _ => none)
  | _ + 1, 'e' :: 'p' :: 's' :: rest => some (.epsR, rest)
  | _ + 1, '\x7b' :: '\x7d' :: rest => some (.emptyL, rest)
  | _ + 1, c :: rest =>
    if c = ')' ∨ c = '|' ∨ c = '*' ∨ c = '(' then none else some (.chr c, rest)
  | _ + 1, [] => none

/-- A concatenation: one starred atom, then as many more as parse. -/
def parseCat : Nat → List Char → Option (RExp × List Char)
  | 0, _ => none
  | f + 1, input =>
    match parseAtom f input with
    | none => none
    | some (r, rest) =>
      (let p := parseStars r rest
       parseCatMore f p.1 p.2)

def parseCatMore : Nat → RExp → List Char → Option (RExp × List Char)
  | 0, _, _ => none
  | f + 1, acc, input =>
    match parseAtom f input with
    | none => some (acc, input)
    | some (r, rest) =>
      (let p := parseStars r rest
       parseCatMore f (.cat acc p.1) p.2)

/-- An alternation: concatenations separated by `|`. -/
def parseAlt : Nat → List Char → Option (RExp × List Char)
  | 0, _ => none
  | f + 1, input =>
    match parseCat f input with
    | none => none
    | some (r, rest) => parseAltMore f r rest

def parseAltMore : Nat → RExp → List Char → Option (RExp × List Char)
  | 0, _, _ => none
  | f + 1, acc, '|' :: rest =>
    (match parseCat f rest with
     | none => none
     | some (r, restC) => parseAltMore f (.alt acc r) restC)
  | _ + 1, acc, rest => some (acc, rest)

end

/-- Read a whole string as a regular expression. -/
def parseRegex (s : String) : Option RExp :=
  match parseAlt (4 * s.data.length + 4) s.data with
  | some (r, []) => some r
  | _ => none

/-! ## Concrete inputs -/

/-- A valid automaton whose initial state `q1` does not sort first:
states sort to `[q0, q1]`, so the initial row index is 1, not 0. -/
def rowBugLines : List String :=
  ["type=[deterministic]", "states=[q0,q1]", "alphabet=[a]", "initial=[q1]",
   "accepting=[q0]", "transitions=[q1>a>q0]"]

/-- The trivial automaton: one state, `a`-self-loop, accepting. -/
def trivLines : List String :=
  ["type=[deterministic]", "states=[q0]", "alphabet=[a]", "initial=[q0]",
   "accepting=[q0]", "transitions=[q0>a>q0]"]

/-- An input whose accepting-state set is empty. -/
def emptyAccLines : List String :=
  ["type=[deterministic]", "states=[q0]", "alphabet=[a]", "initial=[q0]",
   "accepting=[]", "transitions=[q0>a>q0]"]

/-- A parsed automaton with an empty initial-state token. -/
def noInitConv : Conv :=
  Conv.mk "deterministic" ["q0"] ["a"] "" ["q0"] ["q0>a>q0"]

/-- A parsed deterministic automaton where source `q0` has two
outgoing transitions on the same symbol `a`. -/
def nondetConv : Conv :=
  Conv.mk "deterministic" ["q0", "q1"] ["a"] "q0" ["q1"]
    ["q0>a>q0", "q0>a>q1"]

/-- A parsed automaton declaring `q2` that no transition mentions. -/
def orphanConv : Conv :=
  Conv.mk "deterministic" ["q0", "q1", "q2"] ["a"] "q0" ["q1"] ["q0>a>q1"]

/-- A valid two-state parsed automaton (for witnesses). -/
def chainConv : Conv :=
  Conv.mk "deterministic" ["q0", "q1"] ["a"] "q0" ["q1"] ["q0>a>q1"]

/-- `a ++ "|"` for each alternative, concatenated: the intermediate
string `__buildInitialRegExp` accumulates before trimming. -/
def barConcat : List String → String
  | [] => ""
  | a :: rest => a ++ "|" ++ barConcat rest

/-- The sub-expression `a|eps` of the trivial automaton's regex. -/
def aOrEps : RExp := .alt (.chr 'a') .epsR

/-- The expression the string produced for the trivial automaton,
`((a|eps)(a|eps)*(a|eps)|(a|eps))`, reads as. -/
def trivRegexAst : RExp :=
  .alt (.cat (.cat aOrEps (.star aOrEps)) aOrEps) aOrEps

/-- The bucket an association list holds for a key (empty if absent);
used to reason about `defaultdict` grouping. -/
def bucketOf (g : List (String × List String)) (s : String) : List String :=
  match g.find? (fun p => p.1 == s) with
  | some p => p.2
  | none => []

/-! # Theorems -/

theorem str_data_eq {s t : String} (h : s.data = t.data) : s = t :=
  congrArg String.mk h

theorem str_eq_iff_data {s t : String} : s = t ↔ s.data = t.data :=
  ⟨congrArg String.data, str_data_eq⟩

theorem barConcat_foldl (si sj : String) :
    ∀ (ts : List (String × String × String)) (acc : String),
      ts.foldl
        (fun acc t => if t.1 = si ∧ t.2.2 = sj then acc ++ t.2.1 ++ "|" else acc)
        acc = acc ++ barConcat (symsOf ts si sj) := by
  intro ts
  induction ts with
  | nil => intro acc; simp [symsOf, barConcat, String.append_empty]
  | cons t rest ih =>
    intro acc
    by_cases h : t.1 = si ∧ t.2.2 = sj
    · simp only [List.foldl_cons, if_pos h, ih, symsOf, List.filter_cons,
        decide_eq_true_eq, h, and_self, if_true, List.map_cons, barConcat]
      simp [String.append_assoc]
    · simp only [List.foldl_cons, if_neg h, ih, symsOf, List.filter_cons,
        decide_eq_true_eq, h, if_false]

theorem barConcat_append_single :
    ∀ (l : List String) (x : String), barConcat l ++ x = joinBar (l ++ [x])
  | [], x => by simp [barConcat, joinBar, String.empty_append]
  | [a], x => by
    simp [barConcat, joinBar, String.append_assoc, String.append_empty]
  | a :: b :: t, x => by
    have ih := barConcat_append_single (b :: t) x
    calc barConcat (a :: b :: t) ++ x
        = a ++ "|" ++ (barConcat (b :: t) ++ x) := String.append_assoc ..
      _ = a ++ "|" ++ joinBar ((b :: t) ++ [x]) := by rw [ih]
      _ = joinBar ((a :: b :: t) ++ [x]) := rfl

theorem barConcat_eq_joinBar :
    ∀ (l : List String), l ≠ [] → barConcat l = joinBar l ++ "|"
  | [], h => absurd rfl h
  | [a], _ => by simp [barConcat, joinBar]
  | a :: b :: t, _ => by
    have ih := barConcat_eq_joinBar (b :: t) (by simp)
    calc barConcat (a :: b :: t)
        = a ++ "|" ++ barConcat (b :: t) := rfl
      _ = a ++ "|" ++ (joinBar (b :: t) ++ "|") := by rw [ih]
      _ = a ++ "|" ++ joinBar (b :: t) ++ "|" := (String.append_assoc ..).symm
      _ = joinBar (a :: b :: t) ++ "|" := rfl

theorem cellOf_eq_specCell (ts : List (String × String × String)) (si sj : String) :
    cellOf ts si sj = specCell ts si sj := by
  unfold cellOf specCell
  rw [barConcat_foldl si sj ts "", String.empty_append]
  by_cases hd : si = sj
  · cases hsy : symsOf ts si sj with
    | nil =>
      simp only [hsy, barConcat, if_pos hd, String.empty_append, List.nil_append]
      decide
    | cons s ss =>
      simp only [hsy, if_pos hd]
      have h1 : barConcat (s :: ss) ++ epsilonTok = joinBar ((s :: ss) ++ [epsilonTok]) :=
        barConcat_append_single (s :: ss) epsilonTok
      have hne : barConcat (s :: ss) ++ epsilonTok ≠ "" := by
        intro hc
        have hd2 := congrArg String.data hc
        rw [String.data_append] at hd2
        simp [epsilonTok] at hd2
      rw [if_neg hne]
      have hlast : (barConcat (s :: ss) ++ epsilonTok).data.getLast? = some 's' := by
        rw [String.data_append]
        rw [List.getLast?_append_of_ne_nil _ (show epsilonTok.data ≠ [] by decide)]
        rfl
      rw [hlast, if_neg (by decide)]
      rw [if_neg (show ¬((s :: ss) ++ [epsilonTok] = []) by simp), ← h1]
  · cases hsy : symsOf ts si sj with
    | nil =>
      simp only [hsy, barConcat, if_neg hd, List.append_nil]
      decide
    | cons s ss =>
      simp only [hsy, if_neg hd, List.append_nil]
      have h1 : barConcat (s :: ss) = joinBar (s :: ss) ++ "|" :=
        barConcat_eq_joinBar (s :: ss) (by simp)
      have hne : barConcat (s :: ss) ≠ "" := by
        intro hc
        have hd2 := congrArg String.data hc
        rw [h1, String.data_append] at hd2
        simp at hd2
      rw [if_neg hne]
      have hlast : (barConcat (s :: ss)).data.getLast? = some '|' := by
        rw [h1, String.data_append]
        rw [List.getLast?_append_of_ne_nil _ (show ("|" : String).data ≠ [] by decide)]
        rfl
      rw [hlast, if_pos rfl, if_neg (show ¬(s :: ss = []) by simp)]
      rw [h1, String.data_append]
      show String.mk (((joinBar (s :: ss)).data ++ ['|']).dropLast) = _
      rw [List.dropLast_concat]

theorem get2_mkMatrix (n : Nat) (f : Nat → Nat → String) (i j : Nat)
    (hi : i < n) (hj : j < n) : get2 (mkMatrix n f) i j = f i j := by
  simp [get2, mkMatrix, List.getD_eq_getElem?_getD, List.getElem?_map,
    List.getElem?_range, hi, hj]

/-- C3: each cell `(i, j)` of the base matrix built by
`__buildInitialRegExp` is the alternation of all transition symbols `a`
with `(states[i], a, states[j])` a transition, plus the epsilon token
when `i = j`, the empty-language marker when no alternative applies,
and no trailing alternation separator. -/
theorem claim_C3 (c : Conv) (ts : List (String × String × String))
    (M : List (List String)) (i j : Nat)
    (hts : splitTs c.transitions = some ts)
    (hM : buildInitialRegExp c = some M)
    (hi : i < c.states.length) (hj : j < c.states.length) :
    get2 M i j = specCell ts (c.states.getD i "") (c.states.getD j "") := by
  unfold buildInitialRegExp at hM
  rw [hts] at hM
  cases hM
  rw [get2_mkMatrix _ _ i j hi hj]
  exact cellOf_eq_specCell ts _ _

/-- Witness for C3 at the two-state chain automaton. -/
theorem claim_C3_witness :
    get2 [["eps", "a"], ["\x7b\x7d", "eps"]] 0 1 =
      specCell [("q0", "a", "q1")] "q0" "q1" :=
  claim_C3 chainConv [("q0", "a", "q1")] [["eps", "a"], ["\x7b\x7d", "eps"]] 0 1
    (by decide) (by decide) (by decide) (by decide)

/-- C4: each elimination step of `convert` computes every cell of the
step-`k` matrix purely from the completed step-`(k-1)` matrix by the
recurrence `(R[i][k])(R[k][k])*(R[k][j]) | (R[i][j])`, into a fresh
matrix. -/
theorem claim_C4 (c : Conv) (M0 : List (List String)) (k i j : Nat)
    (hM : buildInitialRegExp c = some M0)
    (hk : k < c.states.length) (hi : i < c.states.length)
    (hj : j < c.states.length) :
    get2 (matAfter c M0 (k + 1)) i j = specStepCell (matAfter c M0 k) k i j := by
  unfold matAfter
  rw [List.range_succ, List.foldl_append, List.foldl_cons, List.foldl_nil]
  unfold kleeneStep
  rw [get2_mkMatrix _ _ i j hi hj]
  rfl

/-- Witness for C4 at the two-state chain automaton, step 0. -/
theorem claim_C4_witness :
    get2 (matAfter chainConv [["eps", "a"], ["\x7b\x7d", "eps"]] 1) 0 1 =
      specStepCell (matAfter chainConv [["eps", "a"], ["\x7b\x7d", "eps"]] 0) 0 0 1 :=
  claim_C4 chainConv [["eps", "a"], ["\x7b\x7d", "eps"]] 0 0 1
    (by decide) (by decide) (by decide) (by decide)

/-- C5: `__validate` runs the seven checks in the enumerated order,
stops at the first failure raising exactly that check's outcome, and
when validation fails the construction phase never produces a regex. -/
theorem claim_C5 (c : Conv) :
    validate c =
      firstErr [check1 c, check2 c, check3 c, check4 c, check5 c, check6 c, check7 c]
    ∧ (∀ e, validate c = some e → ∀ s, processConv c ≠ Outcome.output s) := by
  constructor
  · unfold validate
    cases check1 c with
    | some e => rfl
    | none =>
    cases check2 c with
    | some e => rfl
    | none =>
    cases check3 c with
    | some e => rfl
    | none =>
    cases check4 c with
    | some e => rfl
    | none =>
    cases check5 c with
    | some e => rfl
    | none =>
    cases check6 c with
    | some e => rfl
    | none => cases check7 c <;> rfl
  · intro e hv s
    unfold processConv
    rw [hv]
    cases e with
    | cexc e2 => simp
    | pyValueError => simp

/-- Witness for C5: validation failure (empty initial state) really
blocks the construction phase. -/
theorem claim_C5_witness : processConv noInitConv ≠ Outcome.output "" :=
  (claim_C5 noInitConv).2 (VErr.cexc CErr.initStateUndefined) (by decide) ""

/-- C10: the declared type token is never validated; any token other
than exactly `deterministic` silently skips check 7, and the automaton
is processed exactly as if it were declared `non-deterministic`. -/
theorem claim_C10 (c : Conv) (t : String) (ht : t ≠ "deterministic") :
    processConv (withType c t) = processConv (withType c "non-deterministic")
    ∧ check7 (withType c t) = none := by
  have h7t : check7 (withType c t) = none := by
    unfold check7 withType
    exact if_neg ht
  have h7n : check7 (withType c "non-deterministic") = none := by
    unfold check7 withType
    exact if_neg (show ¬("non-deterministic" = "deterministic") by decide)
  refine ⟨?_, h7t⟩
  have hv : validate (withType c t) = validate (withType c "non-deterministic") := by
    unfold validate
    rw [h7t, h7n]
    rfl
  unfold processConv
  rw [hv]
  rfl

/-- Witness for C10 at a misspelled type token. -/
theorem claim_C10_witness :
    processConv (withType chainConv "determ") =
      processConv (withType chainConv "non-deterministic")
    ∧ check7 (withType chainConv "determ") = none :=
  claim_C10 chainConv "determ" (by decide)

/-- C1 (divergence witness): on a valid automaton whose initial state
`q1` has sorted index 1, `convert` returns the row-0 assembly, which
differs from the assembly the spec prescribes from the initial state's
actual row. -/
theorem claim_C1 :
    convert rowBugLines = Outcome.output
      "(((eps)(eps)*(\x7b\x7d)|(\x7b\x7d))((a)(eps)*(\x7b\x7d)|(eps))*((a)(eps)*(eps)|(a))|((eps)(eps)*(eps)|(eps)))"
    ∧ (match extract rowBugLines with
       | Except.ok c => claimAnswer c
       | Except.error _ => none) =
      some "(((a)(eps)*(\x7b\x7d)|(eps))((a)(eps)*(\x7b\x7d)|(eps))*((a)(eps)*(eps)|(a))|((a)(eps)*(eps)|(a)))"
    ∧ (match extract rowBugLines with
       | Except.ok c => idxOfState c.states c.initial_state
       | Except.error _ => 0) = 1
    ∧ ¬ (convert rowBugLines = Outcome.output
      "(((a)(eps)*(\x7b\x7d)|(eps))((a)(eps)*(\x7b\x7d)|(eps))*((a)(eps)*(eps)|(a))|((a)(eps)*(eps)|(a)))") := by
  refine ⟨by decide, by decide, by decide, by decide⟩

theorem splitChar_ne_nil (sep : Char) : ∀ l, splitChar sep l ≠ []
  | [] => by simp [splitChar]
  | c :: rest => by
    unfold splitChar
    by_cases h : c = sep
    · simp [h]
    · rw [if_neg h]
      cases hsc : splitChar sep rest with
      | nil => simp
      | cons w ws => simp

theorem pySplit_ne_nil (s : String) (sep : Char) : pySplit s sep ≠ [] := by
  unfold pySplit
  intro h
  exact splitChar_ne_nil sep s.data (List.map_eq_nil_iff.1 h)

/-- C8 (divergence witness): an input file with `accepting=[]` dies in
`__extract` with the malformed-input error E1 — and no successfully
parsed automaton can ever have an empty accepting list, because
Python's `split(',')` never returns an empty list, so check 3
(`NoAcceptingStates`) is unreachable. -/
theorem claim_C8 :
    convert emptyAccLines = Outcome.errExit (messageOf CErr.inputMalformed) 0
    ∧ (∀ lines c, extract lines = Except.ok c → c.accepting_states ≠ []) := by
  refine ⟨by decide, ?_⟩
  intro lines c h
  unfold extract at h
  split at h
  · split at h
    · cases h
      exact pySplit_ne_nil _ ','
    · cases h
  · cases h

/-- C9 counterexample: at the malformed input `["bogus"]` the program
prints the E1 diagnostic and stops via `exit()` with status 0, so the
claimed non-success exit status is false. -/
theorem claim_C9_counterexample :
    ¬ (∀ m k, convert ["bogus"] = Outcome.errExit m k → k ≠ 0) :=
  fun h => h (messageOf CErr.inputMalformed) 0 (by decide) rfl

/-- C9 (amended): on every validation or parse failure signalled by a
`ConverterException`, exactly one diagnostic (a known error message) is
printed and the process stops with SUCCESS status 0 (bare `exit()`),
emitting no regex; on success the regex is printed and the process
exits normally. -/
theorem claim_C9 :
    (∀ lines m k, convert lines = Outcome.errExit m k →
      k = 0 ∧ ∃ e : CErr, m = messageOf e)
    ∧ (∀ lines c s, extract lines = Except.ok c → validate c = none →
        construction c = some s → convert lines = Outcome.output s) := by
  constructor
  · intro lines m k h
    unfold convert processConv at h
    split at h
    · cases h
      exact ⟨rfl, CErr.inputMalformed, rfl⟩
    · split at h
      · cases h
        exact ⟨rfl, _, rfl⟩
      · cases h
      · split at h
        · cases h
        · cases h
  · intro lines c s hex hv hcn
    unfold convert
    rw [hex]
    show processConv c = Outcome.output s
    unfold processConv
    rw [hv, hcn]

/-- Witness for C9: both conjuncts applied at concrete inputs. -/
theorem claim_C9_witness :
    (0 = 0 ∧ ∃ e : CErr, messageOf CErr.inputMalformed = messageOf e)
    ∧ convert trivLines = Outcome.output "((a|eps)(a|eps)*(a|eps)|(a|eps))" :=
  ⟨claim_C9.1 ["bogus"] (messageOf CErr.inputMalformed) 0 (by decide),
   claim_C9.2 trivLines
     (Conv.mk "deterministic" ["q0"] ["a"] "q0" ["q0"] ["q0>a>q0"])
     "((a|eps)(a|eps)*(a|eps)|(a|eps))" (by rfl) (by decide) (by rfl)⟩

/-! ### Depth-first-search lemmas for C6 -/

theorem foldl_step_extends (step : List String → String → List String)
    (hstep : ∀ vis v, ∃ e, step vis v = vis ++ e) :
    ∀ (l : List String) (vis : List String), ∃ e, l.foldl step vis = vis ++ e
  | [], vis => ⟨[], by simp⟩
  | v :: rest, vis => by
    obtain ⟨e1, h1⟩ := hstep vis v
    obtain ⟨e2, h2⟩ := foldl_step_extends step hstep rest (step vis v)
    exact ⟨e1 ++ e2, by rw [List.foldl_cons, h2, h1, List.append_assoc]⟩

theorem foldl_step_mem (step : List String → String → List String) (P : String → Prop) :
    ∀ (l : List String),
      (∀ vis v, v ∈ l → ∀ x, x ∈ step vis v → x ∈ vis ∨ P x) →
      ∀ (vis : List String) (x : String), x ∈ l.foldl step vis → x ∈ vis ∨ P x
  | [], _, _, _, hx => Or.inl (by simpa using hx)
  | v :: rest, hstep, vis, x, hx => by
    rw [List.foldl_cons] at hx
    rcases foldl_step_mem step P rest
        (fun vis2 w hw => hstep vis2 w (List.mem_cons_of_mem _ hw)) (step vis v) x hx with
      h | h
    · exact hstep vis v (List.mem_cons_self v rest) x h
    · exact Or.inr h

theorem foldl_step_nodup (step : List String → String → List String) :
    ∀ (l : List String),
      (∀ vis v, v ∈ l → vis.Nodup → (step vis v).Nodup) →
      ∀ (vis : List String), vis.Nodup → (l.foldl step vis).Nodup
  | [], _, _, h => by simpa using h
  | v :: rest, hstep, vis, h => by
    rw [List.foldl_cons]
    exact foldl_step_nodup step rest
      (fun vis2 w hw => hstep vis2 w (List.mem_cons_of_mem _ hw)) (step vis v)
      (hstep vis v (List.mem_cons_self v rest) h)

theorem adjOf_targets (g : GraphS) (u v : String) (hv : v ∈ adjOf g u) :
    ∃ p ∈ g, v ∈ p.2 := by
  unfold adjOf at hv
  cases hf : g.find? (fun p => p.1 == u) with
  | none => rw [hf] at hv; simp at hv
  | some p => rw [hf] at hv; exact ⟨p, List.mem_of_find?_eq_some hf, hv⟩

theorem dfsAux_mem (g : GraphS) :
    ∀ (f : Nat) (u : String) (vis : List String) (x : String),
      x ∈ dfsAux g f u vis → x ∈ vis ∨ x = u ∨ ∃ p ∈ g, x ∈ p.2 := by
  intro f
  induction f with
  | zero =>
    intro u vis x hx
    exact Or.inl (by simpa [dfsAux] using hx)
  | succ f ih =>
    intro u vis x hx
    simp only [dfsAux] at hx
    have hstep : ∀ vis2 v, v ∈ adjOf g u → ∀ y,
        y ∈ (if v ∈ vis2 then vis2 else dfsAux g f v vis2) →
        y ∈ vis2 ∨ ∃ p ∈ g, y ∈ p.2 := by
      intro vis2 v hv y hy
      by_cases hv2 : v ∈ vis2
      · rw [if_pos hv2] at hy
        exact Or.inl hy
      · rw [if_neg hv2] at hy
        rcases ih v vis2 y hy with h | h | h
        · exact Or.inl h
        · exact Or.inr (h ▸ adjOf_targets g u v hv)
        · exact Or.inr h
    rcases foldl_step_mem _ (fun y => ∃ p ∈ g, y ∈ p.2) (adjOf g u) hstep
        (vis ++ [u]) x hx with h | h
    · rcases List.mem_append.1 h with h2 | h2
      · exact Or.inl h2
      · exact Or.inr (Or.inl (by simpa using h2))
    · exact Or.inr (Or.inr h)

theorem dfsAux_nodup (g : GraphS) :
    ∀ (f : Nat) (u : String) (vis : List String), vis.Nodup → u ∉ vis →
      (dfsAux g f u vis).Nodup := by
  intro f
  induction f with
  | zero =>
    intro u vis h _
    simpa [dfsAux] using h
  | succ f ih =>
    intro u vis h hu
    simp only [dfsAux]
    refine foldl_step_nodup _ (adjOf g u) ?_ (vis ++ [u]) ?_
    · intro vis2 v _ h2
      by_cases hv2 : v ∈ vis2
      · rw [if_pos hv2]
        exact h2
      · rw [if_neg hv2]
        exact ih v vis2 h2 hv2
    · simp [List.nodup_append, h, hu]

theorem targets_addNodeL (g : GraphS) (l x : String)
    (h : ∃ p ∈ addNodeL g l, x ∈ p.2) : ∃ p ∈ g, x ∈ p.2 := by
  unfold addNodeL at h
  by_cases ha : g.any (fun p => p.1 == l)
  · rwa [if_pos ha] at h
  · rw [if_neg ha] at h
    obtain ⟨p, hp, hx⟩ := h
    rcases List.mem_append.1 hp with h2 | h2
    · exact ⟨p, h2, hx⟩
    · simp at h2
      rw [h2] at hx
      simp at hx

theorem targets_addEdgeL (g : GraphS) (s d x : String)
    (h : ∃ p ∈ addEdgeL g s d, x ∈ p.2) : (∃ p ∈ g, x ∈ p.2) ∨ x = d := by
  unfold addEdgeL at h
  obtain ⟨p, hp, hx⟩ := h
  obtain ⟨q, hq, hpq⟩ := List.mem_map.1 hp
  by_cases hs : q.1 = s
  · rw [if_pos hs] at hpq
    by_cases hd : d ∈ q.2
    · rw [if_pos hd] at hpq
      rw [← hpq] at hx
      exact Or.inl ⟨q, hq, hx⟩
    · rw [if_neg hd] at hpq
      rw [← hpq] at hx
      rcases List.mem_append.1 hx with h2 | h2
      · exact Or.inl ⟨q, hq, h2⟩
      · exact Or.inr (by simpa using h2)
  · rw [if_neg hs] at hpq
    rw [← hpq] at hx
    exact Or.inl ⟨q, hq, hx⟩

theorem targets_graphStep (g : GraphS) (t : String × String × String) (x : String)
    (h : ∃ p ∈ graphStep g t, x ∈ p.2) : (∃ p ∈ g, x ∈ p.2) ∨ x = t.2.2 := by
  unfold graphStep at h
  rcases targets_addEdgeL _ t.1 t.2.2 x h with h2 | h2
  · exact Or.inl (targets_addNodeL _ t.1 x (targets_addNodeL _ t.2.2 x h2))
  · exact Or.inr h2

theorem targets_graphOf_aux :
    ∀ (ts : List (String × String × String)) (acc : GraphS) (x : String),
      (∃ p ∈ ts.foldl graphStep acc, x ∈ p.2) →
      (∃ p ∈ acc, x ∈ p.2) ∨ ∃ t ∈ ts, x = t.2.2
  | [], _, _, h => Or.inl (by simpa using h)
  | t :: rest, acc, x, h => by
    rw [List.foldl_cons] at h
    rcases targets_graphOf_aux rest (graphStep acc t) x h with h2 | h2
    · rcases targets_graphStep acc t x h2 with h3 | h3
      · exact Or.inl h3
      · exact Or.inr ⟨t, List.mem_cons_self t rest, h3⟩
    · obtain ⟨t2, ht2, hx2⟩ := h2
      exact Or.inr ⟨t2, List.mem_cons_of_mem _ ht2, hx2⟩

theorem targets_graphOf (ts : List (String × String × String)) (x : String)
    (h : ∃ p ∈ graphOf ts, x ∈ p.2) : ∃ t ∈ ts, x = t.2.2 := by
  rcases targets_graphOf_aux ts [] x h with h2 | h2
  · simp at h2
  · exact h2

/-- C6: the connectivity check raises `DisjointStates` exactly when the
number of nodes reached by the depth-first traversal from the initial
state's node differs from the number of declared states; in
particular, whenever some declared state is mentioned by no transition
(as source or destination) while all transition endpoints are declared,
the check raises `DisjointStates`. -/
theorem claim_C6 (c : Conv) (ts : List (String × String × String))
    (hts : splitTs c.transitions = some ts) :
    ((check6 c = some (VErr.cexc CErr.disjointStates)) ↔
      reachedCount c ts ≠ c.states.length)
    ∧ (c.states.Nodup → ts ≠ [] →
       (∀ t ∈ ts, t.1 ∈ c.states ∧ t.2.2 ∈ c.states) →
       (∃ u ∈ c.states, ∀ t ∈ ts, ¬ (u = t.1 ∨ u = t.2.2)) →
       check6 c = some (VErr.cexc CErr.disjointStates)) := by
  have hc6 : check6 c =
      if reachedCount c ts ≠ c.states.length then some (.cexc .disjointStates)
      else none := by
    unfold check6
    rw [hts]
  constructor
  · rw [hc6]
    by_cases h : reachedCount c ts ≠ c.states.length
    · simp [h]
    · simp [h]
  · intro hnd hne hmem hex
    obtain ⟨u, hu, hunref⟩ := hex
    rw [hc6, if_pos ?_]
    have hpos : 0 < c.states.length := by
      cases hs : c.states with
      | nil => rw [hs] at hu; simp at hu
      | cons a l => simp [hs]
    have herase : (c.states.erase u).length = c.states.length - 1 :=
      List.length_erase_of_mem hu
    unfold reachedCount reachedList
    by_cases hm : mentionsLabel ts c.initial_state
    · rw [if_pos hm]
      have hmention : ∃ t ∈ ts, t.1 = c.initial_state ∨ t.2.2 = c.initial_state := by
        unfold mentionsLabel at hm
        obtain ⟨t, ht, hor⟩ := List.any_eq_true.1 hm
        rcases Bool.or_eq_true_iff.1 hor with h2 | h2
        · exact ⟨t, ht, Or.inl (by simpa using h2)⟩
        · exact ⟨t, ht, Or.inr (by simpa using h2)⟩
      have hinit_ne_u : c.initial_state ≠ u := by
        obtain ⟨t, ht, hor⟩ := hmention
        intro he
        rcases hor with h2 | h2
        · exact hunref t ht (Or.inl (by rw [he] at h2; exact h2.symm))
        · exact hunref t ht (Or.inr (by rw [he] at h2; exact h2.symm))
      have hinit_mem : c.initial_state ∈ c.states := by
        obtain ⟨t, ht, hor⟩ := hmention
        rcases hor with h2 | h2
        · exact h2 ▸ (hmem t ht).1
        · exact h2 ▸ (hmem t ht).2
      have hRnd : (dfsAux (graphOf ts) ((graphOf ts).length + 1)
          c.initial_state []).Nodup :=
        dfsAux_nodup _ _ _ [] (by simp) (by simp)
      have hRsub : dfsAux (graphOf ts) ((graphOf ts).length + 1)
          c.initial_state [] ⊆ c.states.erase u := by
        intro x hx
        rcases dfsAux_mem _ _ _ _ x hx with h | h | h
        · simp at h
        · rw [h]
          exact (List.mem_erase_of_ne hinit_ne_u).2 hinit_mem
        · obtain ⟨t, ht, hxd⟩ := targets_graphOf ts x h
          have hxu : x ≠ u := by
            intro he
            exact hunref t ht (Or.inr (by rw [← he]; exact hxd))
          exact (List.mem_erase_of_ne hxu).2 (hxd ▸ (hmem t ht).2)
      have hlen := (List.subperm_of_subset hRnd hRsub).length_le
      omega
    · rw [if_neg hm]
      obtain ⟨t, ht⟩ := List.exists_mem_of_ne_nil ts hne
      have ht1 : t.1 ∈ c.states.erase u := by
        refine (List.mem_erase_of_ne ?_).2 (hmem t ht).1
        intro he
        exact hunref t ht (Or.inl he.symm)
      have : 0 < (c.states.erase u).length := by
        cases hs : c.states.erase u with
        | nil => rw [hs] at ht1; simp at ht1
        | cons a l => simp [hs]
      simp only [List.length_singleton]
      omega

/-- Witness for C6 at the automaton declaring unreferenced `q2`. -/
theorem claim_C6_witness :
    check6 orphanConv = some (VErr.cexc CErr.disjointStates) :=
  (claim_C6 orphanConv [("q0", "a", "q1")] (by decide)).2
    (by decide) (by decide) (by decide) (by decide)

/-! ### Grouping lemmas for C7 -/

theorem dedupAux_length_le : ∀ (seen l : List String), (dedupAux seen l).length ≤ l.length
  | _, [] => Nat.le_refl 0
  | seen, x :: rest => by
    unfold dedupAux
    by_cases h : x ∈ seen
    · rw [if_pos h]
      exact Nat.le_succ_of_le (dedupAux_length_le seen rest)
    · rw [if_neg h]
      simpa using Nat.succ_le_succ (dedupAux_length_le (x :: seen) rest)

theorem dedupAux_length_eq_iff : ∀ (seen l : List String),
    ((dedupAux seen l).length = l.length ↔ l.Nodup ∧ ∀ x ∈ l, x ∉ seen)
  | _, [] => by simp [dedupAux]
  | seen, x :: rest => by
    unfold dedupAux
    by_cases h : x ∈ seen
    · rw [if_pos h]
      constructor
      · intro hl
        have := dedupAux_length_le seen rest
        rw [List.length_cons] at hl
        omega
      · rintro ⟨-, hall⟩
        exact absurd h (hall x (List.mem_cons_self x rest))
    · rw [if_neg h]
      have ih := dedupAux_length_eq_iff (x :: seen) rest
      constructor
      · intro hl
        have h2 : (dedupAux (x :: seen) rest).length = rest.length := by
          rw [List.length_cons, List.length_cons] at hl
          omega
        obtain ⟨hnd, hall⟩ := ih.1 h2
        refine ⟨List.nodup_cons.2 ⟨?_, hnd⟩, ?_⟩
        · intro hx
          exact hall x hx (List.mem_cons_self x seen)
        · intro y hy
          rcases List.mem_cons.1 hy with rfl | hy2
          · exact h
          · intro hys
            exact hall y hy2 (List.mem_cons_of_mem _ hys)
      · rintro ⟨hnd, hall⟩
        have hx : x ∉ rest := (List.nodup_cons.1 hnd).1
        have h2 : (dedupAux (x :: seen) rest).length = rest.length := by
          refine ih.2 ⟨(List.nodup_cons.1 hnd).2, ?_⟩
          intro y hy hys
          rcases List.mem_cons.1 hys with rfl | hys2
          · exact hx hy
          · exact hall y (List.mem_cons_of_mem _ hy) hys2
        simp [h2]

theorem dedupFirst_length_iff (l : List String) :
    ((dedupFirst l).length = l.length) ↔ l.Nodup := by
  unfold dedupFirst
  rw [dedupAux_length_eq_iff]
  simp

theorem bucketOf_addGroup_self : ∀ (g : List (String × List String)) (s a : String),
    bucketOf (addGroup g s a) s = bucketOf g s ++ [a]
  | [], s, a => by
    simp [addGroup, bucketOf, List.find?]
  | (k, vs) :: rest, s, a => by
    unfold addGroup
    by_cases h : k = s
    · subst h
      rw [if_pos rfl]
      simp [bucketOf, List.find?]
    · rw [if_neg h]
      unfold bucketOf
      rw [List.find?_cons_of_neg _ (by simp [h]),
        List.find?_cons_of_neg _ (by simp [h])]
      exact bucketOf_addGroup_self rest s a

theorem bucketOf_addGroup_ne : ∀ (g : List (String × List String)) (s a k : String),
    k ≠ s → bucketOf (addGroup g s a) k = bucketOf g k
  | [], s, a, k, hk => by
    unfold addGroup bucketOf
    rw [List.find?_cons_of_neg _ (by simp [Ne.symm hk])]
  | (k2, vs) :: rest, s, a, k, hk => by
    unfold addGroup
    by_cases h : k2 = s
    · rw [if_pos h]
      have h2 : k2 ≠ k := fun he => hk (he.symm.trans h)
      unfold bucketOf
      rw [List.find?_cons_of_neg _ (by simp [h2]),
        List.find?_cons_of_neg _ (by simp [h2])]
    · rw [if_neg h]
      by_cases h2 : k2 = k
      · subst h2
        simp [bucketOf, List.find?]
      · unfold bucketOf
        rw [List.find?_cons_of_neg _ (by simp [h2]),
          List.find?_cons_of_neg _ (by simp [h2])]
        exact bucketOf_addGroup_ne rest s a k hk

theorem bucketOf_fold : ∀ (ts : List (String × String × String))
    (acc : List (String × List String)) (s : String),
    bucketOf (ts.foldl (fun acc t => addGroup acc t.1 t.2.1) acc) s =
      bucketOf acc s ++ (ts.filter (fun t => decide (t.1 = s))).map (fun t => t.2.1)
  | [], _, _ => by simp
  | t :: rest, acc, s => by
    rw [List.foldl_cons, bucketOf_fold rest (addGroup acc t.1 t.2.1) s]
    by_cases h : t.1 = s
    · subst h
      rw [bucketOf_addGroup_self]
      simp [List.filter_cons, List.append_assoc]
    · rw [bucketOf_addGroup_ne acc t.1 t.2.1 s (fun he => h he.symm)]
      simp [List.filter_cons, h]

theorem bucketOf_of_mem : ∀ (g : List (String × List String)),
    (g.map Prod.fst).Nodup → ∀ p ∈ g, bucketOf g p.1 = p.2
  | [], _, p, hp => absurd hp (List.not_mem_nil p)
  | (k, vs) :: rest, hnd, p, hp => by
    rcases List.mem_cons.1 hp with rfl | hp2
    · simp [bucketOf, List.find?]
    · have hk : k ≠ p.1 := by
        intro he
        have hmem : p.1 ∈ rest.map Prod.fst := List.mem_map.2 ⟨p, hp2, rfl⟩
        rw [List.map_cons] at hnd
        exact (List.nodup_cons.1 hnd).1 (he ▸ hmem)
      have ih := bucketOf_of_mem rest
        (by rw [List.map_cons] at hnd; exact (List.nodup_cons.1 hnd).2) p hp2
      unfold bucketOf at ih ⊢
      rw [List.find?_cons_of_neg _ (by simp [beq_eq_false_iff_ne.2 hk])]
      exact ih

theorem keys_addGroup : ∀ (g : List (String × List String)) (s a : String),
    (addGroup g s a).map Prod.fst =
      if s ∈ g.map Prod.fst then g.map Prod.fst else g.map Prod.fst ++ [s]
  | [], s, a => by simp [addGroup]
  | (k, vs) :: rest, s, a => by
    unfold addGroup
    by_cases h : k = s
    · rw [if_pos h]
      simp [h]
    · rw [if_neg h]
      simp only [List.map_cons]
      rw [keys_addGroup rest s a]
      by_cases hs : s ∈ rest.map Prod.fst
      · rw [if_pos hs, if_pos (by simp [hs])]
      · rw [if_neg hs, if_neg ?_]
        · simp
        · intro hc
          rcases List.mem_cons.1 hc with he | he
          · exact h he.symm
          · exact hs he

theorem keys_nodup_fold : ∀ (ts : List (String × String × String))
    (acc : List (String × List String)), (acc.map Prod.fst).Nodup →
    ((ts.foldl (fun acc t => addGroup acc t.1 t.2.1) acc).map Prod.fst).Nodup
  | [], _, h => by simpa using h
  | t :: rest, acc, h => by
    rw [List.foldl_cons]
    refine keys_nodup_fold rest _ ?_
    rw [keys_addGroup]
    by_cases hs : t.1 ∈ acc.map Prod.fst
    · rw [if_pos hs]
      exact h
    · rw [if_neg hs]
      simp [List.nodup_append, h, hs]

theorem count_symbols (ts : List (String × String × String)) (s a : String) :
    ((ts.filter (fun t => decide (t.1 = s))).map (fun t => t.2.1)).count a =
      (ts.filter (fun t => decide (t.1 = s ∧ t.2.1 = a))).length := by
  show ((ts.filter (fun t => decide (t.1 = s))).map (fun t => t.2.1)).countP (· == a) = _
  rw [List.countP_map, List.countP_filter, ← List.countP_eq_length_filter]
  refine List.countP_congr ?_
  intro t _
  by_cases h1 : t.1 = s <;> by_cases h2 : t.2.1 = a <;>
    simp [h1, h2, Function.comp]

theorem not_nodup_iff_two_le_count (l : List String) :
    ¬ l.Nodup ↔ ∃ a, 2 ≤ l.count a := by
  rw [List.nodup_iff_count_le_one]
  push_neg
  exact exists_congr fun a => by omega

theorem grouped_dup_iff_shared (ts : List (String × String × String)) :
    ((groupBySource ts).any (fun p => (dedupFirst p.2).length ≠ p.2.length) = true)
    ↔ sharedSymbol ts := by
  constructor
  · intro h
    obtain ⟨p, hp, hdup⟩ := List.any_eq_true.1 h
    rw [decide_eq_true_eq] at hdup
    have hnodup : ¬ p.2.Nodup := fun hn => hdup ((dedupFirst_length_iff p.2).2 hn)
    have hkeys : ((groupBySource ts).map Prod.fst).Nodup := by
      unfold groupBySource
      exact keys_nodup_fold ts [] (by simp)
    have hbucket : bucketOf (groupBySource ts) p.1 = p.2 :=
      bucketOf_of_mem (groupBySource ts) hkeys p hp
    have hsym : p.2 = (ts.filter (fun t => decide (t.1 = p.1))).map (fun t => t.2.1) := by
      have hg := bucketOf_fold ts [] p.1
      unfold groupBySource at hbucket
      rw [hbucket] at hg
      simpa using hg
    rw [hsym] at hnodup
    obtain ⟨a, ha⟩ := (not_nodup_iff_two_le_count _).1 hnodup
    rw [count_symbols ts p.1 a] at ha
    exact ⟨p.1, a, ha⟩
  · rintro ⟨s, a, hcount⟩
    have hcnt : 2 ≤ ((ts.filter (fun t => decide (t.1 = s))).map
        (fun t => t.2.1)).count a := by
      rw [count_symbols ts s a]
      exact hcount
    have hne : (ts.filter (fun t => decide (t.1 = s))).map (fun t => t.2.1) ≠ [] := by
      intro he
      rw [he] at hcnt
      simp at hcnt
    have hb : bucketOf (groupBySource ts) s
        = (ts.filter (fun t => decide (t.1 = s))).map (fun t => t.2.1) := by
      unfold groupBySource
      simpa using bucketOf_fold ts [] s
    unfold bucketOf at hb
    cases hf : (groupBySource ts).find? (fun p => p.1 == s) with
    | none =>
      rw [hf] at hb
      exact absurd hb.symm hne
    | some p =>
      rw [hf] at hb
      simp only at hb
      refine List.any_eq_true.2 ⟨p, List.mem_of_find?_eq_some hf, ?_⟩
      rw [decide_eq_true_eq]
      intro hlen
      exact ((not_nodup_iff_two_le_count _).2 ⟨a, hb ▸ hcnt⟩)
        ((dedupFirst_length_iff p.2).1 hlen)

/-- C7: on an automaton declared exactly `deterministic`, check 7
raises `NondeterministicFsa` precisely when some source state has two
or more transitions sharing an outgoing symbol; the identical automaton
declared `non-deterministic` passes the check, which is skipped
entirely. -/
theorem claim_C7 (c : Conv) (ts : List (String × String × String))
    (hts : splitTs c.transitions = some ts) :
    ((check7 c = some (VErr.cexc CErr.nondeterministicFsa)) ↔
      (c.automaton_type = "deterministic" ∧ sharedSymbol ts))
    ∧ check7 (withType c "non-deterministic") = none := by
  constructor
  · by_cases hdet : c.automaton_type = "deterministic"
    · have hc7 : check7 c =
          if (groupBySource ts).any (fun p => (dedupFirst p.2).length ≠ p.2.length) then
            some (VErr.cexc CErr.nondeterministicFsa)
          else none := by
        unfold check7
        rw [if_pos hdet, hts]
      rw [hc7]
      by_cases hany :
          (groupBySource ts).any (fun p => (dedupFirst p.2).length ≠ p.2.length) = true
      · rw [if_pos hany]
        exact iff_of_true rfl ⟨hdet, (grouped_dup_iff_shared ts).1 hany⟩
      · rw [if_neg hany]
        exact iff_of_false (by simp)
          (fun h => hany ((grouped_dup_iff_shared ts).2 h.2))
    · have hc7 : check7 c = none := by
        unfold check7
        rw [if_neg hdet]
      rw [hc7]
      exact iff_of_false (by simp) (fun h => hdet h.1)
  · unfold check7 withType
    exact if_neg (show ¬("non-deterministic" = "deterministic") by decide)

/-- Witness for C7 at a deterministic automaton with two `a`-transitions
out of `q0`. -/
theorem claim_C7_witness :
    check7 nondetConv = some (VErr.cexc CErr.nondeterministicFsa)
    ∧ check7 (withType nondetConv "non-deterministic") = none := by
  have h := claim_C7 nondetConv [("q0", "a", "q0"), ("q0", "a", "q1")] (by decide)
  exact ⟨h.1.mpr ⟨rfl, "q0", "a", by decide⟩, h.2⟩

/-! ### Language lemmas for C2 -/

theorem flatten_map_singleton (w : List Char) :
    (w.map (fun c => [c])).flatten = w := by
  induction w with
  | nil => rfl
  | cons c cs ih => simp [ih]

theorem mem_aOrEps (w : List Char) :
    w ∈ langOf aOrEps ↔ w = ['a'] ∨ w = [] := by
  rw [show langOf aOrEps = {['a']} + 1 from rfl, Language.mem_add, Language.mem_one]
  exact or_congr Set.mem_singleton_iff Iff.rfl

theorem mem_aOrEps_star (w : List Char) :
    w ∈ KStar.kstar (langOf aOrEps) ↔ ∀ c ∈ w, c = 'a' := by
  constructor
  · intro h
    obtain ⟨L, hw, hL⟩ := Language.mem_kstar.1 h
    subst hw
    intro c hc
    obtain ⟨y, hy, hcy⟩ := List.mem_flatten.1 hc
    rcases (mem_aOrEps y).1 (hL y hy) with rfl | rfl
    · simpa using hcy
    · simp at hcy
  · intro h
    refine Language.mem_kstar.2 ⟨w.map (fun c => [c]), (flatten_map_singleton w).symm, ?_⟩
    intro y hy
    obtain ⟨c, hc, rfl⟩ := List.mem_map.1 hy
    rw [h c hc]
    exact (mem_aOrEps ['a']).2 (Or.inl rfl)

/-- C2: on the trivial automaton (one state, one `a`-self-loop,
accepting initial state) `convert` outputs
`((a|eps)(a|eps)*(a|eps)|(a|eps))`, that string reads as the expression
`trivRegexAst`, and the language of that expression is exactly the set
of all finite strings of `a`s, the empty string included — the
language `a*`. -/
theorem claim_C2 :
    convert trivLines = Outcome.output "((a|eps)(a|eps)*(a|eps)|(a|eps))"
    ∧ parseRegex "((a|eps)(a|eps)*(a|eps)|(a|eps))" = some trivRegexAst
    ∧ (∀ w : List Char, w ∈ langOf trivRegexAst ↔ ∀ c ∈ w, c = 'a') := by
  refine ⟨by decide, by decide, ?_⟩
  intro w
  rw [show langOf trivRegexAst =
    (langOf aOrEps * KStar.kstar (langOf aOrEps)) * langOf aOrEps + langOf aOrEps
    from rfl, Language.mem_add]
  constructor
  · rintro (h | h)
    · obtain ⟨ab, hab, z, hz, heq⟩ := Language.mem_mul.1 h
      obtain ⟨x, hx, y, hy, heq2⟩ := Language.mem_mul.1 hab
      subst heq
      subst heq2
      intro c hc
      rcases List.mem_append.1 hc with hc2 | hc2
      · rcases List.mem_append.1 hc2 with hc3 | hc3
        · rcases (mem_aOrEps x).1 hx with rfl | rfl
          · simpa using hc3
          · simp at hc3
        · exact (mem_aOrEps_star y).1 hy c hc3
      · rcases (mem_aOrEps z).1 hz with rfl | rfl
        · simpa using hc2
        · simp at hc2
    · intro c hc
      rcases (mem_aOrEps w).1 h with rfl | rfl
      · simpa using hc
      · simp at hc
  · intro h
    left
    refine Language.mem_mul.2 ⟨w, ?_, [], (mem_aOrEps []).2 (Or.inr rfl), by simp⟩
    exact Language.mem_mul.2
      ⟨[], (mem_aOrEps []).2 (Or.inr rfl), w, (mem_aOrEps_star w).2 h, by simp⟩

end FSARegExp
